import Mathlib

/-!
# Pachi (zzgo): board macros and iterators of `board.h`, engine selection of `zzgo.c`

A shallow embedding of the C sources.

* `int` values are mathematical integers (`Int`); the board sizes of the program keep
  every position below `2 ^ 16`, far from the range where `int` arithmetic could overflow.
* The `uint16_t` arrays of `struct board` are functions from a position to a `Nat`;
  a store into the census array truncates to 16 bits explicitly.
* Bitwise `int` operations act on 32-bit two's-complement patterns held in a `Nat`.
* An iterator that takes a loop body is a function of the body (a state transformer);
  the `do ... while` loop of `foreach_in_group`, which need not terminate, takes fuel and
  returns `none` when the fuel runs out.
-/

namespace Pachi

/-! ## Stones, coordinates, the board -/

/-- Modelled from the spec: `stone.h` is not among the sources. The four stone colours of
the data model, `enum stone`, numbered in the order the spec lists them
(empty, black, white, off-board). -/
inductive stone where
  | S_NONE
  | S_BLACK
  | S_WHITE
  | S_OFFBOARD
  deriving DecidableEq, Repr

/-- The integer value of an `enum stone` constant, as used for `color` in the census macros. -/
def stone.toNat : stone → Nat
  | .S_NONE => 0
  | .S_BLACK => 1
  | .S_WHITE => 2
  | .S_OFFBOARD => 3

/-- Modelled from the spec: `move.h` is not among the sources. A coordinate carries the
packed position `pos = x + size * y` and the board side `size`, the two fields `board.h`
reads. -/
structure coord_t where
  pos : Int
  size : Int
  deriving DecidableEq, Repr

/-- The `struct group` record: pseudo-liberty count and first stone. -/
structure group where
  libs : Nat
  base_stone : coord_t

/-- The fields of `struct board` that the macros and iterators of `board.h` touch:
`size` (margin included), the stone map `b`, the group-id map `g`, the next-stone map `p`
(0 = last stone), the packed neighbour census `n`, and the group records `gi`. -/
structure board where
  size : Int
  b : Int → stone
  g : Int → Nat
  p : Int → Nat
  n : Int → Nat
  gi : Nat → group

/-- Modelled from the spec: `coord_pos(coord, pos_, board)` of the missing `move.h`; it
fills a coordinate with the position `pos_` and the side length of the board. -/
def coord_pos (pos_ : Int) (b_ : board) : coord_t :=
  { pos := pos_, size := b_.size }

/-- The macro `board_at(b_, c)`. -/
def board_at (b_ : board) (c : coord_t) : stone := b_.b c.pos

/-- The index expression `(x) + (b_)->size * (y)` shared by the `_atxy` macros. -/
def index_atxy (b_ : board) (x y : Int) : Int := x + b_.size * y

/-- The macro `board_atxy(b_, x, y)`. -/
def board_atxy (b_ : board) (x y : Int) : stone := b_.b (index_atxy b_ x y)

/-- The macro `group_at(b_, c)`. -/
def group_at (b_ : board) (c : coord_t) : Nat := b_.g c.pos

/-- The macro `groupnext_at(b_, c)`. -/
def groupnext_at (b_ : board) (c : coord_t) : Nat := b_.p c.pos

/-- The macro `board_group(b_, g_)`. -/
def board_group (b_ : board) (g_ : Nat) : group := b_.gi g_

/-! ## Packed neighbour census -/

/-- The operator `~` on a 32-bit `int` pattern. -/
def int_not (x : Nat) : Nat := (2 ^ 32 - 1) ^^^ x

/-- The expression `(w >> (color*4)) & 15` of `neighbor_count_at` on a census word. -/
def neighbor_count_word (w color : Nat) : Nat := (w >>> (color * 4)) &&& 15

/-- The right-hand side of `set_neighbor_count_at` on a census word `w`,
`(w & ~(15 << (color*4))) | (count << (color*4))`, computed in `int` and truncated by the
store into the `uint16_t` array. `count` is a 32-bit pattern. -/
def set_neighbor_count_word (w color count : Nat) : Nat :=
  ((w &&& int_not (15 <<< (color * 4))) ||| ((count <<< (color * 4)) % 2 ^ 32)) % 2 ^ 16

/-- The macro `neighbor_count_at(b_, coord, color)`. -/
def neighbor_count_at (b_ : board) (coord : coord_t) (color : Nat) : Nat :=
  neighbor_count_word (b_.n coord.pos) color

/-- The macro `set_neighbor_count_at(b_, coord, color, count)`: an assignment to
`n[coord.pos]`. -/
def set_neighbor_count_at (b_ : board) (coord : coord_t) (color count : Nat) : board :=
  { b_ with n := fun i =>
      if i = coord.pos then set_neighbor_count_word (b_.n coord.pos) color count else b_.n i }

/-- The macro `inc_neighbor_count_at(b_, coord, color)`. -/
def inc_neighbor_count_at (b_ : board) (coord : coord_t) (color : Nat) : board :=
  set_neighbor_count_at b_ coord color ((neighbor_count_at b_ coord color + 1) % 2 ^ 32)

/-- The macro `dec_neighbor_count_at(b_, coord, color)`; the `int` subtraction `- 1` is
taken on the 32-bit pattern. -/
def dec_neighbor_count_at (b_ : board) (coord : coord_t) (color : Nat) : board :=
  set_neighbor_count_at b_ coord color
    ((neighbor_count_at b_ coord color + (2 ^ 32 - 1)) % 2 ^ 32)

/-- The sum of the four counters of the census word of `coord`. -/
def neighbor_count_sum (b_ : board) (coord : coord_t) : Nat :=
  neighbor_count_at b_ coord 0 + neighbor_count_at b_ coord 1
    + neighbor_count_at b_ coord 2 + neighbor_count_at b_ coord 3

/-! ## Iterators -/

/-- The `for (; c.pos < c.size * c.size; c.pos++)` loop of `foreach_point`, from the
current coordinate `c`. -/
def foreach_point_loop {σ : Type} (body : coord_t → σ → σ) (c : coord_t) (s : σ) : σ :=
  if c.pos < c.size * c.size then
    foreach_point_loop body { c with pos := c.pos + 1 } (body c s)
  else s
termination_by (c.size * c.size - c.pos).toNat
decreasing_by
  simp_wf
  omega

/-- The iterator `foreach_point(board_) body foreach_point_end`. -/
def foreach_point {σ : Type} (board_ : board) (body : coord_t → σ → σ) (s : σ) : σ :=
  foreach_point_loop body (coord_pos 0 board_) s

/-- The array `q__` that `foreach_neighbor(board_, coord_)` fills, in order. -/
def foreach_neighbor_q (board_ : board) (coord_ : coord_t) : List coord_t :=
  [ coord_pos (coord_.pos - 1) board_,
    coord_pos (coord_.pos - coord_.size) board_,
    coord_pos (coord_.pos + 1) board_,
    coord_pos (coord_.pos + coord_.size) board_ ]

/-- The iterator `foreach_neighbor(board_, coord_) body foreach_neighbor_end`: the body
runs on `q__[0]`, ..., `q__[q__i - 1]`. -/
def foreach_neighbor {σ : Type} (board_ : board) (coord_ : coord_t)
    (body : coord_t → σ → σ) (s : σ) : σ :=
  (foreach_neighbor_q board_ coord_).foldl (fun st c => body c st) s

/-- The array `q__` that `foreach_diag_neighbor(board_, coord_)` fills, in order. -/
def foreach_diag_neighbor_q (board_ : board) (coord_ : coord_t) : List coord_t :=
  [ coord_pos (coord_.pos - coord_.size - 1) board_,
    coord_pos (coord_.pos - coord_.size + 1) board_,
    coord_pos (coord_.pos + coord_.size - 1) board_,
    coord_pos (coord_.pos + coord_.size + 1) board_ ]

/-- The iterator `foreach_diag_neighbor(board_, coord_) body foreach_diag_neighbor_end`. -/
def foreach_diag_neighbor {σ : Type} (board_ : board) (coord_ : coord_t)
    (body : coord_t → σ → σ) (s : σ) : σ :=
  (foreach_diag_neighbor_q board_ coord_).foldl (fun st c => body c st) s

/-- The `do { body; c = c2; c2.pos = groupnext_at(board__, c2); } while (c.pos != 0)` loop
of `foreach_in_group`. The program state `s` holds the board, read through `brd`; the body
may change it. `none` when the fuel is used up before the loop exits. -/
def foreach_in_group_loop {σ : Type} (brd : σ → board) (body : coord_t → σ → σ) :
    Nat → coord_t → coord_t → σ → Option σ
  | 0, _, _, _ => none
  | fuel + 1, c, c2, s =>
    let s1 := body c s
    let c_next := c2
    let c2_next := { c2 with pos := (groupnext_at (brd s1) c2 : Int) }
    if c_next.pos ≠ 0 then foreach_in_group_loop brd body fuel c_next c2_next s1
    else some s1

/-- The iterator `foreach_in_group(board_, group_) body foreach_in_group_end`. -/
def foreach_in_group {σ : Type} (brd : σ → board) (group_ : Nat)
    (body : coord_t → σ → σ) (fuel : Nat) (s : σ) : Option σ :=
  let c := (board_group (brd s) group_).base_stone
  let c2 := { c with pos := (groupnext_at (brd s) c : Int) }
  foreach_in_group_loop brd body fuel c c2 s

/-! ## Predicates and instrumented runs used to state the properties -/

/-- The number of positions enumerated by `foreach_neighbor` whose stone is `col`, counted
by a loop body that increments a counter. -/
def neighbors_of_color (b_ : board) (coord : coord_t) (col : stone) : Nat :=
  foreach_neighbor b_ coord (fun q cnt => if board_at b_ q = col then cnt + 1 else cnt) 0

/-- Invariant I7 at one position: each of the four counters of the census word equals the
number of orthogonal neighbours of that colour. -/
def census_matches (b_ : board) (coord : coord_t) : Prop :=
  neighbor_count_at b_ coord stone.S_NONE.toNat = neighbors_of_color b_ coord .S_NONE ∧
  neighbor_count_at b_ coord stone.S_BLACK.toNat = neighbors_of_color b_ coord .S_BLACK ∧
  neighbor_count_at b_ coord stone.S_WHITE.toNat = neighbors_of_color b_ coord .S_WHITE ∧
  neighbor_count_at b_ coord stone.S_OFFBOARD.toNat = neighbors_of_color b_ coord .S_OFFBOARD

/-- The positions on which `foreach_point` runs its body, in the order of the runs: the body
appends the position to a log. -/
def foreach_point_visits (b_ : board) : List Int :=
  foreach_point b_ (fun c log => log ++ [c.pos]) []

/-- A chain `s1 -> s2 -> ... -> sk -> 0` of the next-stone map: `k >= 1`, every position is
non-zero, each is followed by its successor, and the last one by 0. -/
def is_chain (next : Int → Nat) : List Int → Prop
  | [] => False
  | [s] => s ≠ 0 ∧ (next s : Int) = 0
  | s :: t :: rest => s ≠ 0 ∧ (next s : Int) = t ∧ is_chain next (t :: rest)

/-- A circular list `s1 -> s2 -> ... -> sk -> first` of the next-stone map that closes on
the position `first`. -/
def is_cycle_from (next : Int → Nat) (first : Int) : List Int → Prop
  | [] => False
  | [s] => s ≠ 0 ∧ (next s : Int) = first
  | s :: t :: rest => s ≠ 0 ∧ (next s : Int) = t ∧ is_cycle_from next first (t :: rest)

/-- The body runs of a group iteration over the positions `l`, in order, on coordinates of
side length `size`. -/
def run_body_on {σ : Type} (body : coord_t → σ → σ) (size : Int) (l : List Int) (s : σ) : σ :=
  l.foldl (fun st q => body { pos := q, size := size } st) s

/-- Modelled from the spec: the code that maintains `libs` (`board.c`) is not among the
sources. The number of empty orthogonal neighbours of one stone, the summand of
invariant I4, counted over `foreach_neighbor`. -/
def empty_neighbors (b_ : board) (coord : coord_t) : Nat :=
  neighbors_of_color b_ coord .S_NONE

/-- Modelled from the spec: the code that maintains `libs` (`board.c`) is not among the
sources. The pseudo-liberty count invariant I4 prescribes for a group with the given
stones: the sum over its stones of the number of empty orthogonal neighbours. -/
def pseudo_libs (b_ : board) (stones : List coord_t) : Nat :=
  (stones.map (empty_neighbors b_)).sum

/-- A position holds a stone when its colour is black or white. -/
def holds_stone (b_ : board) (c : coord_t) : Prop :=
  board_at b_ c = .S_BLACK ∨ board_at b_ c = .S_WHITE

/-! ## Example boards -/

/-- A 3x3 board (side 5 with the margin): black stones at 7, 8, 13 (group 1, chained
7 -> 8 -> 13 -> 0), at 11 (group 2) and at 17 (group 3); 6, 12, 16, 18 are empty. -/
def demo_board : board where
  size := 5
  b := fun i =>
    if i = 7 ∨ i = 8 ∨ i = 13 ∨ i = 11 ∨ i = 17 then .S_BLACK
    else if i = 6 ∨ i = 12 ∨ i = 16 ∨ i = 18 then .S_NONE
    else .S_OFFBOARD
  g := fun i =>
    if i = 7 ∨ i = 8 ∨ i = 13 then 1 else if i = 11 then 2 else if i = 17 then 3 else 0
  p := fun i => if i = 7 then 8 else if i = 8 then 13 else 0
  n := fun i =>
    if i = 6 then 0x2020 else if i = 7 then 0x1012 else if i = 8 then 0x2020
    else if i = 11 then 0x1003 else if i = 12 then 0x0040 else if i = 13 then 0x1012
    else if i = 16 then 0x2020 else if i = 17 then 0x1003 else if i = 18 then 0x2020
    else 0
  gi := fun k =>
    if k = 1 then { libs := 4, base_stone := { pos := 7, size := 5 } }
    else if k = 2 then { libs := 3, base_stone := { pos := 11, size := 5 } }
    else if k = 3 then { libs := 3, base_stone := { pos := 17, size := 5 } }
    else { libs := 0, base_stone := { pos := 0, size := 5 } }

/-- A 9x9 board (side 11 with the margin) that is empty but for one black stone at `at_`,
which is a group of its own whose next link is `next_`. -/
def single_stone_board (at_ : Int) (next_ : Nat) (libs_ : Nat) : board where
  size := 11
  b := fun i =>
    if i = at_ then .S_BLACK
    else if 1 ≤ i % 11 ∧ i % 11 ≤ 9 ∧ 1 ≤ i / 11 ∧ i / 11 ≤ 9 then .S_NONE
    else .S_OFFBOARD
  g := fun i => if i = at_ then 1 else 0
  p := fun i => if i = at_ then next_ else 0
  n := fun _ => 0
  gi := fun k =>
    if k = 1 then { libs := libs_, base_stone := { pos := at_, size := 11 } }
    else { libs := 0, base_stone := { pos := 0, size := 11 } }

/-- A loop body that clears the next link of the stone it runs on, as a capture does, and
counts its runs. -/
def clear_next_body (c : coord_t) (s : board × Nat) : board × Nat :=
  ({ s.1 with p := fun i => if i = c.pos then 0 else s.1.p i }, s.2 + 1)

/-- A loop body that leaves the board alone and logs the position it runs on. -/
def log_body (c : coord_t) (s : board × List Int) : board × List Int :=
  (s.1, s.2 ++ [c.pos])

/-- Decidability of `holds_stone`, for evaluation on concrete boards. -/
instance holds_stone_decidable (b_ : board) (c : coord_t) : Decidable (holds_stone b_ c) := by
  unfold holds_stone
  infer_instance

/-! ## The driver `zzgo.c`: engine selection -/

/-- The constant `E_RANDOM` of `enum engine_id`. -/
def E_RANDOM : Nat := 0
/-- The constant `E_REPLAY` of `enum engine_id`. -/
def E_REPLAY : Nat := 1
/-- The constant `E_PATTERNSCAN` of `enum engine_id`. -/
def E_PATTERNSCAN : Nat := 2
/-- The constant `E_MONTECARLO` of `enum engine_id`. -/
def E_MONTECARLO : Nat := 3
/-- The constant `E_UCT` of `enum engine_id`. -/
def E_UCT : Nat := 4
/-- The constant `E_MAX` of `enum engine_id`. -/
def E_MAX : Nat := 5

/-- The engine constructors the table `engine_init` points to (defined in the engines'
own sources). -/
inductive engine_init_fn where
  | engine_random_init
  | engine_replay_init
  | engine_patternscan_init
  | engine_montecarlo_init
  | engine_uct_init
  deriving DecidableEq, Repr

/-- The table `engine_init[E_MAX]`, in the order of its initialiser. -/
def engine_init : List engine_init_fn :=
  [ .engine_random_init, .engine_replay_init, .engine_patternscan_init,
    .engine_montecarlo_init, .engine_uct_init ]

/-- How the start-up of `main` ends: `exit(status)`, a failed `assert`, or the first call of
an engine constructor, made by `init_engine` with the engine argument `arg`. -/
inductive startup where
  | exit (status : Int)
  | assert_failed
  | engine_initialised (init : engine_init_fn) (arg : Option (List Char))
  deriving DecidableEq, Repr

/-- The function `init_engine`: asserts `engine < E_MAX` and calls `engine_init[engine]`. -/
def init_engine (engine : Nat) (e_arg : Option (List Char)) : startup :=
  if engine < E_MAX then
    match engine_init.get? engine with
    | some init => .engine_initialised init e_arg
    | none => .assert_failed
  else .assert_failed

/-- The C library function `tolower` in the C locale, on a character of a string. -/
def tolower (c : Char) : Char :=
  if 'A' ≤ c ∧ c ≤ 'Z' then Char.ofNat (c.toNat + 32) else c

/-- The C library function `strcasecmp` on two strings given by their characters before the
terminating NUL: the difference of the first two lower-cased characters that differ (the
terminator counts as 0), or 0 when there is none. -/
def strcasecmp : List Char → List Char → Int
  | [], [] => 0
  | [], b :: _ => 0 - ((tolower b).toNat : Int)
  | a :: _, [] => ((tolower a).toNat : Int)
  | a :: s1, b :: s2 =>
    if tolower a = tolower b then strcasecmp s1 s2
    else ((tolower a).toNat : Int) - ((tolower b).toNat : Int)

/-- Two strings are equal ignoring letter case: they have the same characters once every
letter is put in lower case. -/
def eq_ignoring_case (a b : List Char) : Prop :=
  a.map Char.toLower = b.map Char.toLower

/-- The fields of `struct time_info` that `main` reads or writes. -/
structure time_info where
  period : Nat
  dim : Nat
  ignore_gtp : Bool

/-- What `main` uses from outside the two source files: `atoi` of the C library, and
`time_parse` with the constants `TT_NULL`, `TT_TOTAL`, `TD_WALLTIME` of `timeinfo.h`.
`time_parse` returns `none` for the C result `false`, else the filled-in record. -/
structure externals where
  atoi : List Char → Int
  time_parse : time_info → List Char → Option time_info
  TT_NULL : Nat
  TT_TOTAL : Nat
  TD_WALLTIME : Nat

/-- The variables the option loop of `main` assigns. -/
structure main_vars where
  engine : Nat
  debug_level : Int
  seed : Int
  ti_default : time_info
  testfile : Option (List Char)

/-- One iteration of the `while ((opt = getopt(...)) != -1) switch (opt)` loop of `main`,
for the option character `opt` and its argument `optarg`: the updated variables, or the
way the program ends there. -/
def main_option (ext : externals) (v : main_vars) (opt : Char) (optarg : List Char) :
    Except startup main_vars :=
  if opt = 'e' then
    if strcasecmp optarg "random".toList = 0 then .ok { v with engine := E_RANDOM }
    else if strcasecmp optarg "patternscan".toList = 0 then
      .ok { v with engine := E_PATTERNSCAN }
    else if strcasecmp optarg "replay".toList = 0 then .ok { v with engine := E_REPLAY }
    else if strcasecmp optarg "montecarlo".toList = 0 then
      .ok { v with engine := E_MONTECARLO }
    else if strcasecmp optarg "uct".toList = 0 then .ok { v with engine := E_UCT }
    else .error (.exit 1)
  else if opt = 'd' then .ok { v with debug_level := ext.atoi optarg }
  else if opt = 's' then .ok { v with seed := ext.atoi optarg }
  else if opt = 't' then
    match ext.time_parse v.ti_default optarg with
    | none => .error (.exit 1)
    | some ti =>
      let ti1 := { ti with ignore_gtp := true }
      if ti1.period = ext.TT_NULL then .error .assert_failed
      else if ti1.dim = ext.TD_WALLTIME ∧ ti1.period = ext.TT_TOTAL then .error (.exit 1)
      else .ok { v with ti_default := ti1 }
  else if opt = 'u' then .ok { v with testfile := some optarg }
  else .error (.exit 1)

/-- The option loop of `main` over the options `getopt` returns, in order. -/
def main_options (ext : externals) : main_vars → List (Char × List Char) →
    Except startup main_vars
  | v, [] => .ok v
  | v, (opt, optarg) :: rest =>
    match main_option ext v opt optarg with
    | .ok v1 => main_options ext v1 rest
    | .error e => .error e

/-- The values of the variables of `main` when its option loop starts: `engine = E_UCT`,
the global `debug_level = 3`, `seed = time(NULL) ^ getpid()` (given as `seed0`),
`ti_default = { .period = TT_NULL }`, `testfile = NULL`. -/
def main_initial (ext : externals) (seed0 : Int) : main_vars :=
  { engine := E_UCT, debug_level := 3, seed := seed0,
    ti_default := { period := ext.TT_NULL, dim := 0, ignore_gtp := false },
    testfile := none }

/-- The function `main` up to its first call of `init_engine`: `seed0` is `time(NULL) ^ getpid()`,
`opts` the options with their arguments as `getopt` returns them, `e_arg` the first
non-option argument (`NULL` when there is none). -/
def main (ext : externals) (seed0 : Int) (opts : List (Char × List Char))
    (e_arg : Option (List Char)) : startup :=
  match main_options ext (main_initial ext seed0) opts with
  | .error e => e
  | .ok v => init_engine v.engine e_arg

/-- Externals for examples: `atoi` returns 0; `time_parse` accepts only the string `=1000`
(a number of simulations per move) and rejects every other string. -/
def demo_externals : externals where
  atoi := fun _ => 0
  time_parse := fun ti arg =>
    if arg = "=1000".toList then some { ti with period := 1, dim := 0 } else none
  TT_NULL := 0
  TT_TOTAL := 2
  TD_WALLTIME := 1

/-- The option loop of `main` runs to its end on the options `opts`: no option ends the
program (no `exit`, no failed `assert`). -/
def option_loop_completes (ext : externals) (seed0 : Int)
    (opts : List (Char × List Char)) : Prop :=
  ∃ v, main_options ext (main_initial ext seed0) opts = .ok v

/-! ## Packed neighbour census: lemmas -/

theorem testBit_fifteen (i : Nat) : Nat.testBit 15 i = decide (i < 4) := by
  have h := Nat.testBit_two_pow_sub_one 4 i
  simpa using h

theorem testBit_nibble_high (k i : Nat) (hk : k ≤ 15) (hi : 4 ≤ i) :
    Nat.testBit k i = false := by
  apply Nat.testBit_lt_two_pow
  calc k < 2 ^ 4 := by omega
    _ ≤ 2 ^ i := Nat.pow_le_pow_right (by decide) hi

theorem neighbor_count_word_le (w c : Nat) : neighbor_count_word w c ≤ 15 := by
  unfold neighbor_count_word
  exact Nat.and_le_right

theorem neighbor_count_word_set_same (w c k : Nat) (hc : c < 4) (hk : k ≤ 15) :
    neighbor_count_word (set_neighbor_count_word w c k) c = k := by
  apply Nat.eq_of_testBit_eq
  intro i
  unfold neighbor_count_word set_neighbor_count_word int_not
  simp only [Nat.testBit_and, Nat.testBit_or, Nat.testBit_xor, Nat.testBit_shiftLeft,
    Nat.testBit_shiftRight, Nat.testBit_mod_two_pow, Nat.testBit_two_pow_sub_one,
    testBit_fifteen]
  by_cases hi : i < 4
  · have h1 : c * 4 + i < 16 := by omega
    have h2 : c * 4 + i < 32 := by omega
    have h3 : c * 4 + i ≥ c * 4 := by omega
    have h4 : c * 4 + i - c * 4 = i := by omega
    simp [hi, h1, h2, h3, h4]
  · have h5 := testBit_nibble_high k i hk (by omega)
    simp [hi, h5]

theorem neighbor_count_word_set_other (w c c' k : Nat) (hc' : c' < 4) (hne : c' ≠ c)
    (hk : k ≤ 15) :
    neighbor_count_word (set_neighbor_count_word w c k) c' = neighbor_count_word w c' := by
  apply Nat.eq_of_testBit_eq
  intro i
  unfold neighbor_count_word set_neighbor_count_word int_not
  simp only [Nat.testBit_and, Nat.testBit_or, Nat.testBit_xor, Nat.testBit_shiftLeft,
    Nat.testBit_shiftRight, Nat.testBit_mod_two_pow, Nat.testBit_two_pow_sub_one,
    testBit_fifteen]
  by_cases hi : i < 4
  · have h1 : c' * 4 + i < 16 := by omega
    have h2 : c' * 4 + i < 32 := by omega
    by_cases h3 : c' * 4 + i ≥ c * 4
    · have h4 : ¬ (c' * 4 + i - c * 4 < 4) := by omega
      have h5 := testBit_nibble_high k (c' * 4 + i - c * 4) hk (by omega)
      simp [hi, h1, h2, h3, h4, h5]
    · simp [hi, h1, h2, h3]
  · simp [hi]

theorem neighbor_count_at_set_same (b_ : board) (coord : coord_t) (c k : Nat)
    (hc : c < 4) (hk : k ≤ 15) :
    neighbor_count_at (set_neighbor_count_at b_ coord c k) coord c = k := by
  simp [neighbor_count_at, set_neighbor_count_at, neighbor_count_word_set_same _ c k hc hk]

theorem neighbor_count_at_set_other (b_ : board) (coord : coord_t) (c c' k : Nat)
    (hc' : c' < 4) (hne : c' ≠ c) (hk : k ≤ 15) :
    neighbor_count_at (set_neighbor_count_at b_ coord c k) coord c'
      = neighbor_count_at b_ coord c' := by
  simp [neighbor_count_at, set_neighbor_count_at,
    neighbor_count_word_set_other _ c c' k hc' hne hk]

theorem neighbor_count_at_le (b_ : board) (coord : coord_t) (c : Nat) :
    neighbor_count_at b_ coord c ≤ 15 :=
  neighbor_count_word_le _ _

theorem neighbor_count_at_inc_same (b_ : board) (coord : coord_t) (c : Nat) (hc : c < 4)
    (h : neighbor_count_at b_ coord c ≤ 14) :
    neighbor_count_at (inc_neighbor_count_at b_ coord c) coord c
      = neighbor_count_at b_ coord c + 1 := by
  unfold inc_neighbor_count_at
  have e : (neighbor_count_at b_ coord c + 1) % 2 ^ 32 = neighbor_count_at b_ coord c + 1 := by
    omega
  rw [e]
  exact neighbor_count_at_set_same b_ coord c _ hc (by omega)

theorem neighbor_count_at_inc_other (b_ : board) (coord : coord_t) (c c' : Nat)
    (hc' : c' < 4) (hne : c' ≠ c) (h : neighbor_count_at b_ coord c ≤ 14) :
    neighbor_count_at (inc_neighbor_count_at b_ coord c) coord c'
      = neighbor_count_at b_ coord c' := by
  unfold inc_neighbor_count_at
  have e : (neighbor_count_at b_ coord c + 1) % 2 ^ 32 = neighbor_count_at b_ coord c + 1 := by
    omega
  rw [e]
  exact neighbor_count_at_set_other b_ coord c c' _ hc' hne (by omega)

theorem neighbor_count_at_dec_same (b_ : board) (coord : coord_t) (c : Nat) (hc : c < 4)
    (h : 1 ≤ neighbor_count_at b_ coord c) :
    neighbor_count_at (dec_neighbor_count_at b_ coord c) coord c
      = neighbor_count_at b_ coord c - 1 := by
  unfold dec_neighbor_count_at
  have hle := neighbor_count_at_le b_ coord c
  have e : (neighbor_count_at b_ coord c + (2 ^ 32 - 1)) % 2 ^ 32
      = neighbor_count_at b_ coord c - 1 := by
    omega
  rw [e]
  exact neighbor_count_at_set_same b_ coord c _ hc (by omega)

theorem neighbor_count_at_dec_other (b_ : board) (coord : coord_t) (c c' : Nat)
    (hc' : c' < 4) (hne : c' ≠ c) (h : 1 ≤ neighbor_count_at b_ coord c) :
    neighbor_count_at (dec_neighbor_count_at b_ coord c) coord c'
      = neighbor_count_at b_ coord c' := by
  unfold dec_neighbor_count_at
  have hle := neighbor_count_at_le b_ coord c
  have e : (neighbor_count_at b_ coord c + (2 ^ 32 - 1)) % 2 ^ 32
      = neighbor_count_at b_ coord c - 1 := by
    omega
  rw [e]
  exact neighbor_count_at_set_other b_ coord c c' _ hc' hne (by omega)

/-! ## Packed neighbour census: the claims -/

/-- Claim C1: the packed census behaves like four independent counters. For every board
(hence every census word), every position, every colour index `c < 4` and every count
`k <= 15`: after `set_neighbor_count_at(c, k)` the counter of colour `c` reads `k`, and the
counter of every other colour `c2` reads what it read before. -/
theorem C1_census_set_then_get (b_ : board) (coord : coord_t) (c k : Nat)
    (hc : c < 4) (hk : k ≤ 15) :
    neighbor_count_at (set_neighbor_count_at b_ coord c k) coord c = k ∧
    ∀ c2, c2 < 4 → c2 ≠ c →
      neighbor_count_at (set_neighbor_count_at b_ coord c k) coord c2
        = neighbor_count_at b_ coord c2 :=
  ⟨neighbor_count_at_set_same b_ coord c k hc hk,
   fun c2 h2 hne => neighbor_count_at_set_other b_ coord c c2 k h2 hne hk⟩

/-- Witness of C1 on the census word `0x1012` of position 7 of the example board, colour 2,
count 3. -/
theorem C1_census_set_then_get_witness :
    (2 < 4 ∧ 3 ≤ 15) ∧
    (neighbor_count_at (set_neighbor_count_at demo_board ⟨7, 5⟩ 2 3) ⟨7, 5⟩ 2 = 3 ∧
     ∀ c2, c2 < 4 → c2 ≠ 2 →
      neighbor_count_at (set_neighbor_count_at demo_board ⟨7, 5⟩ 2 3) ⟨7, 5⟩ c2
        = neighbor_count_at demo_board ⟨7, 5⟩ c2) :=
  ⟨by decide, C1_census_set_then_get demo_board ⟨7, 5⟩ 2 3 (by decide) (by decide)⟩

/-- Claim C9: for every census word and colour index `c < 4` whose counter holds `k`:
if `k <= 14`, `inc_neighbor_count_at` makes it `k + 1`; if `k >= 1`,
`dec_neighbor_count_at` makes it `k - 1`; both leave the other three counters unchanged;
and a decrement of one colour `e` (such as `empty`) followed by an increment of another
colour `c` (the placed colour) leaves the sum of the four counters unchanged. -/
theorem C9_census_inc_dec (b_ : board) (coord : coord_t) (c : Nat) (hc : c < 4) :
    (neighbor_count_at b_ coord c ≤ 14 →
      neighbor_count_at (inc_neighbor_count_at b_ coord c) coord c
        = neighbor_count_at b_ coord c + 1 ∧
      ∀ c2, c2 < 4 → c2 ≠ c →
        neighbor_count_at (inc_neighbor_count_at b_ coord c) coord c2
          = neighbor_count_at b_ coord c2) ∧
    (1 ≤ neighbor_count_at b_ coord c →
      neighbor_count_at (dec_neighbor_count_at b_ coord c) coord c
        = neighbor_count_at b_ coord c - 1 ∧
      ∀ c2, c2 < 4 → c2 ≠ c →
        neighbor_count_at (dec_neighbor_count_at b_ coord c) coord c2
          = neighbor_count_at b_ coord c2) ∧
    (∀ e, e < 4 → e ≠ c → 1 ≤ neighbor_count_at b_ coord e →
      neighbor_count_at b_ coord c ≤ 14 →
      neighbor_count_sum (inc_neighbor_count_at (dec_neighbor_count_at b_ coord e) coord c)
        coord = neighbor_count_sum b_ coord) := by
  refine ⟨fun h => ⟨neighbor_count_at_inc_same b_ coord c hc h,
      fun c2 h2 hne => neighbor_count_at_inc_other b_ coord c c2 h2 hne h⟩,
    fun h => ⟨neighbor_count_at_dec_same b_ coord c hc h,
      fun c2 h2 hne => neighbor_count_at_dec_other b_ coord c c2 h2 hne h⟩, ?_⟩
  intro e he hne h1 h14
  have hd : neighbor_count_at (dec_neighbor_count_at b_ coord e) coord c
      = neighbor_count_at b_ coord c :=
    neighbor_count_at_dec_other b_ coord e c hc (Ne.symm hne) h1
  have h14d : neighbor_count_at (dec_neighbor_count_at b_ coord e) coord c ≤ 14 := by
    rw [hd]; exact h14
  have key : ∀ x, x < 4 →
      neighbor_count_at (inc_neighbor_count_at (dec_neighbor_count_at b_ coord e) coord c)
        coord x
      = if x = c then neighbor_count_at b_ coord c + 1
        else if x = e then neighbor_count_at b_ coord e - 1
        else neighbor_count_at b_ coord x := by
    intro x hx
    by_cases hxc : x = c
    · subst hxc
      rw [neighbor_count_at_inc_same _ coord x hx h14d, hd]
      simp
    · rw [neighbor_count_at_inc_other _ coord c x hx hxc h14d]
      by_cases hxe : x = e
      · subst hxe
        rw [neighbor_count_at_dec_same b_ coord x hx h1]
        simp [hxc]
      · rw [neighbor_count_at_dec_other b_ coord e x hx hxe h1]
        simp [hxc, hxe]
  unfold neighbor_count_sum
  rw [key 0 (by decide), key 1 (by decide), key 2 (by decide), key 3 (by decide)]
  interval_cases e <;> interval_cases c <;> simp at hne ⊢ <;> omega

/-- Witness of C9 on the census word `0x1012` of position 7 of the example board (two empty
neighbours, one black, one off-board), colour black. -/
theorem C9_census_inc_dec_witness :
    (1 < 4 ∧ neighbor_count_at demo_board ⟨7, 5⟩ 1 ≤ 14 ∧
      1 ≤ neighbor_count_at demo_board ⟨7, 5⟩ 1 ∧ 1 ≤ neighbor_count_at demo_board ⟨7, 5⟩ 0) ∧
    neighbor_count_at (inc_neighbor_count_at demo_board ⟨7, 5⟩ 1) ⟨7, 5⟩ 1 = 2 ∧
    neighbor_count_at (dec_neighbor_count_at demo_board ⟨7, 5⟩ 1) ⟨7, 5⟩ 1 = 0 ∧
    neighbor_count_sum
      (inc_neighbor_count_at (dec_neighbor_count_at demo_board ⟨7, 5⟩ 0) ⟨7, 5⟩ 1) ⟨7, 5⟩
      = neighbor_count_sum demo_board ⟨7, 5⟩ := by
  have h := C9_census_inc_dec demo_board ⟨7, 5⟩ 1 (by decide)
  have h14 : neighbor_count_at demo_board ⟨7, 5⟩ 1 ≤ 14 := by decide
  have h1 : 1 ≤ neighbor_count_at demo_board ⟨7, 5⟩ 1 := by decide
  have h0 : 1 ≤ neighbor_count_at demo_board ⟨7, 5⟩ 0 := by decide
  exact ⟨⟨by decide, h14, h1, h0⟩, (h.1 h14).1, (h.2.1 h1).1,
    h.2.2 0 (by decide) (by decide) h0 h14⟩

/-! ## Eye-likeness through the census -/

theorem neighbors_of_color_eq (b_ : board) (coord : coord_t) (col : stone) :
    neighbors_of_color b_ coord col
      = ((foreach_neighbor_q b_ coord).map
          (fun q => if board_at b_ q = col then 1 else 0)).sum := by
  unfold neighbors_of_color foreach_neighbor foreach_neighbor_q
  simp only [List.foldl_cons, List.foldl_nil, List.map_cons, List.map_nil, List.sum_cons,
    List.sum_nil]
  split_ifs <;> omega

/-- Claim C2: for every position whose census word matches the colours of its four
orthogonal neighbours (invariant I7) and every stone colour `col` that is black or white:
`neighbor_count_at(col) + neighbor_count_at(off-board) == 4` holds if and only if each of
the four positions enumerated by `foreach_neighbor` is of colour `col` or off-board. -/
theorem C2_eyelike_census_iff (b_ : board) (coord : coord_t) (col : stone)
    (hcol : col = .S_BLACK ∨ col = .S_WHITE) (h7 : census_matches b_ coord) :
    neighbor_count_at b_ coord col.toNat + neighbor_count_at b_ coord stone.S_OFFBOARD.toNat = 4
      ↔ ∀ q ∈ foreach_neighbor_q b_ coord,
          board_at b_ q = col ∨ board_at b_ q = .S_OFFBOARD := by
  obtain ⟨_, hb, hw, ho⟩ := h7
  have hc : neighbor_count_at b_ coord col.toNat = neighbors_of_color b_ coord col := by
    rcases hcol with h | h <;> subst h <;> assumption
  rw [hc, ho, neighbors_of_color_eq, neighbors_of_color_eq]
  simp only [foreach_neighbor_q, List.map_cons, List.map_nil, List.sum_cons, List.sum_nil,
    List.mem_cons, List.mem_singleton, List.not_mem_nil, or_false, forall_eq_or_imp, forall_eq]
  generalize board_at b_ (coord_pos (coord.pos - 1) b_) = s1
  generalize board_at b_ (coord_pos (coord.pos - coord.size) b_) = s2
  generalize board_at b_ (coord_pos (coord.pos + 1) b_) = s3
  generalize board_at b_ (coord_pos (coord.pos + coord.size) b_) = s4
  rcases hcol with h | h <;> subst h <;>
    cases s1 <;> cases s2 <;> cases s3 <;> cases s4 <;> simp

/-- Witness of C2 at the empty centre point 12 of the example board, whose four neighbours
are black. -/
theorem C2_eyelike_census_iff_witness :
    (stone.S_BLACK = .S_BLACK ∨ stone.S_BLACK = .S_WHITE) ∧
    census_matches demo_board ⟨12, 5⟩ ∧
    (neighbor_count_at demo_board ⟨12, 5⟩ stone.S_BLACK.toNat
        + neighbor_count_at demo_board ⟨12, 5⟩ stone.S_OFFBOARD.toNat = 4
      ↔ ∀ q ∈ foreach_neighbor_q demo_board ⟨12, 5⟩,
          board_at demo_board q = .S_BLACK ∨ board_at demo_board q = .S_OFFBOARD) :=
  have h7 : census_matches demo_board ⟨12, 5⟩ := by
    unfold census_matches
    decide
  ⟨Or.inl rfl, h7, C2_eyelike_census_iff demo_board ⟨12, 5⟩ .S_BLACK (Or.inl rfl) h7⟩

/-! ## Neighbour enumeration stays on the board -/

theorem index_atxy_decompose (b_ : board) (x y : Int) (hx0 : 0 ≤ x) (hx1 : x < b_.size)
    (hy0 : 0 ≤ y) (hy1 : y < b_.size) :
    index_atxy b_ x y % b_.size = x ∧ index_atxy b_ x y / b_.size = y ∧
    0 ≤ index_atxy b_ x y ∧ index_atxy b_ x y < b_.size * b_.size := by
  unfold index_atxy
  have hS : b_.size ≠ 0 := by omega
  refine ⟨?_, ?_, ?_, ?_⟩
  · rw [Int.add_mul_emod_self_left, Int.emod_eq_of_lt hx0 hx1]
  · rw [Int.add_mul_ediv_left _ _ hS, Int.ediv_eq_zero_of_lt hx0 hx1, zero_add]
  · nlinarith
  · nlinarith

/-- Claim C3: for every board of side `size >= 3` (margin included) and every playable point
`(x, y)`, `1 <= x, y <= size - 2`, at `pos = x + size * y`: the iterator `foreach_neighbor`
runs its body, whatever the body, on exactly the indices of `(x-1,y)`, `(x,y-1)`, `(x+1,y)`,
`(x,y+1)` and `foreach_diag_neighbor` on those of `(x-1,y-1)`, `(x+1,y-1)`, `(x-1,y+1)`,
`(x+1,y+1)`, once each and in this order (these are the contents of their `q__` arrays); all
eight positions lie in `[0, size*size)`, and their column `pos % size` and row `pos / size`
differ from `x` and `y` by at most one and lie in `[0, size)`, so no enumeration leaves the
arrays or wraps into another row. -/
theorem C3_neighbors_in_bounds (b_ : board) (x y : Int) (hsize : 3 ≤ b_.size)
    (hx1 : 1 ≤ x) (hx2 : x ≤ b_.size - 2) (hy1 : 1 ≤ y) (hy2 : y ≤ b_.size - 2) :
    (∀ (σ : Type) (body : coord_t → σ → σ) (s : σ),
      foreach_neighbor b_ (coord_pos (index_atxy b_ x y) b_) body s
        = [ coord_pos (index_atxy b_ (x - 1) y) b_, coord_pos (index_atxy b_ x (y - 1)) b_,
            coord_pos (index_atxy b_ (x + 1) y) b_,
            coord_pos (index_atxy b_ x (y + 1)) b_ ].foldl (fun st q => body q st) s) ∧
    (∀ (σ : Type) (body : coord_t → σ → σ) (s : σ),
      foreach_diag_neighbor b_ (coord_pos (index_atxy b_ x y) b_) body s
        = [ coord_pos (index_atxy b_ (x - 1) (y - 1)) b_,
            coord_pos (index_atxy b_ (x + 1) (y - 1)) b_,
            coord_pos (index_atxy b_ (x - 1) (y + 1)) b_,
            coord_pos (index_atxy b_ (x + 1) (y + 1)) b_ ].foldl (fun st q => body q st) s) ∧
    foreach_neighbor_q b_ (coord_pos (index_atxy b_ x y) b_)
      = [ coord_pos (index_atxy b_ (x - 1) y) b_, coord_pos (index_atxy b_ x (y - 1)) b_,
          coord_pos (index_atxy b_ (x + 1) y) b_, coord_pos (index_atxy b_ x (y + 1)) b_ ] ∧
    foreach_diag_neighbor_q b_ (coord_pos (index_atxy b_ x y) b_)
      = [ coord_pos (index_atxy b_ (x - 1) (y - 1)) b_,
          coord_pos (index_atxy b_ (x + 1) (y - 1)) b_,
          coord_pos (index_atxy b_ (x - 1) (y + 1)) b_,
          coord_pos (index_atxy b_ (x + 1) (y + 1)) b_ ] ∧
    (foreach_neighbor_q b_ (coord_pos (index_atxy b_ x y) b_)).map
        (fun q => (q.pos % b_.size, q.pos / b_.size))
      = [ (x - 1, y), (x, y - 1), (x + 1, y), (x, y + 1) ] ∧
    (foreach_diag_neighbor_q b_ (coord_pos (index_atxy b_ x y) b_)).map
        (fun q => (q.pos % b_.size, q.pos / b_.size))
      = [ (x - 1, y - 1), (x + 1, y - 1), (x - 1, y + 1), (x + 1, y + 1) ] ∧
    ∀ q ∈ foreach_neighbor_q b_ (coord_pos (index_atxy b_ x y) b_)
          ++ foreach_diag_neighbor_q b_ (coord_pos (index_atxy b_ x y) b_),
      (0 ≤ q.pos ∧ q.pos < b_.size * b_.size) ∧
      (0 ≤ q.pos % b_.size ∧ q.pos % b_.size < b_.size) ∧
      (0 ≤ q.pos / b_.size ∧ q.pos / b_.size < b_.size) := by
  have hpos : (0 : Int) < b_.size := lt_of_lt_of_le (by decide) hsize
  have e1 : foreach_neighbor_q b_ (coord_pos (index_atxy b_ x y) b_)
      = [ coord_pos (index_atxy b_ (x - 1) y) b_, coord_pos (index_atxy b_ x (y - 1)) b_,
          coord_pos (index_atxy b_ (x + 1) y) b_, coord_pos (index_atxy b_ x (y + 1)) b_ ] := by
    simp only [foreach_neighbor_q, coord_pos, index_atxy, List.cons.injEq, coord_t.mk.injEq,
      and_true]
    refine ⟨?_, ?_, ?_, ?_⟩ <;> ring
  have e2 : foreach_diag_neighbor_q b_ (coord_pos (index_atxy b_ x y) b_)
      = [ coord_pos (index_atxy b_ (x - 1) (y - 1)) b_,
          coord_pos (index_atxy b_ (x + 1) (y - 1)) b_,
          coord_pos (index_atxy b_ (x - 1) (y + 1)) b_,
          coord_pos (index_atxy b_ (x + 1) (y + 1)) b_ ] := by
    simp only [foreach_diag_neighbor_q, coord_pos, index_atxy, List.cons.injEq,
      coord_t.mk.injEq, and_true]
    refine ⟨?_, ?_, ?_, ?_⟩ <;> ring
  have d := fun (x2 y2 : Int) (a : 0 ≤ x2) (b : x2 < b_.size) (c : 0 ≤ y2)
      (d : y2 < b_.size) => index_atxy_decompose b_ x2 y2 a b c d
  have n1 := d (x - 1) y (by omega) (by omega) (by omega) (by omega)
  have n2 := d x (y - 1) (by omega) (by omega) (by omega) (by omega)
  have n3 := d (x + 1) y (by omega) (by omega) (by omega) (by omega)
  have n4 := d x (y + 1) (by omega) (by omega) (by omega) (by omega)
  have g1 := d (x - 1) (y - 1) (by omega) (by omega) (by omega) (by omega)
  have g2 := d (x + 1) (y - 1) (by omega) (by omega) (by omega) (by omega)
  have g3 := d (x - 1) (y + 1) (by omega) (by omega) (by omega) (by omega)
  have g4 := d (x + 1) (y + 1) (by omega) (by omega) (by omega) (by omega)
  have it1 : ∀ (σ : Type) (body : coord_t → σ → σ) (s : σ),
      foreach_neighbor b_ (coord_pos (index_atxy b_ x y) b_) body s
        = [ coord_pos (index_atxy b_ (x - 1) y) b_, coord_pos (index_atxy b_ x (y - 1)) b_,
            coord_pos (index_atxy b_ (x + 1) y) b_,
            coord_pos (index_atxy b_ x (y + 1)) b_ ].foldl (fun st q => body q st) s := by
    intro σ body s
    unfold foreach_neighbor
    rw [e1]
  have it2 : ∀ (σ : Type) (body : coord_t → σ → σ) (s : σ),
      foreach_diag_neighbor b_ (coord_pos (index_atxy b_ x y) b_) body s
        = [ coord_pos (index_atxy b_ (x - 1) (y - 1)) b_,
            coord_pos (index_atxy b_ (x + 1) (y - 1)) b_,
            coord_pos (index_atxy b_ (x - 1) (y + 1)) b_,
            coord_pos (index_atxy b_ (x + 1) (y + 1)) b_ ].foldl (fun st q => body q st) s := by
    intro σ body s
    unfold foreach_diag_neighbor
    rw [e2]
  refine ⟨it1, it2, e1, e2, ?_, ?_, ?_⟩
  · rw [e1]
    simp only [List.map_cons, List.map_nil, coord_pos, n1.1, n1.2.1, n2.1, n2.2.1, n3.1,
      n3.2.1, n4.1, n4.2.1]
  · rw [e2]
    simp only [List.map_cons, List.map_nil, coord_pos, g1.1, g1.2.1, g2.1, g2.2.1, g3.1,
      g3.2.1, g4.1, g4.2.1]
  · rw [e1, e2]
    intro q hq
    simp only [List.cons_append, List.nil_append, List.mem_cons, List.mem_singleton,
      List.not_mem_nil, or_false] at hq
    rcases hq with h | h | h | h | h | h | h | h <;> subst h <;>
      simp only [coord_pos] <;>
      first
        | (rw [n1.1, n1.2.1]; exact ⟨n1.2.2, by omega, by omega⟩)
        | (rw [n2.1, n2.2.1]; exact ⟨n2.2.2, by omega, by omega⟩)
        | (rw [n3.1, n3.2.1]; exact ⟨n3.2.2, by omega, by omega⟩)
        | (rw [n4.1, n4.2.1]; exact ⟨n4.2.2, by omega, by omega⟩)
        | (rw [g1.1, g1.2.1]; exact ⟨g1.2.2, by omega, by omega⟩)
        | (rw [g2.1, g2.2.1]; exact ⟨g2.2.2, by omega, by omega⟩)
        | (rw [g3.1, g3.2.1]; exact ⟨g3.2.2, by omega, by omega⟩)
        | (rw [g4.1, g4.2.1]; exact ⟨g4.2.2, by omega, by omega⟩)

/-- Witness of C3 at the corner point `(1, 1)` of the 3x3 example board, position 6: with a
body that logs the position it runs on, `foreach_neighbor` logs `[5, 1, 7, 11]` and
`foreach_diag_neighbor` logs `[0, 2, 10, 12]`. -/
theorem C3_neighbors_in_bounds_witness :
    (3 ≤ demo_board.size ∧ (1 : Int) ≤ 1 ∧ 1 ≤ demo_board.size - 2) ∧
    foreach_neighbor demo_board (coord_pos (index_atxy demo_board 1 1) demo_board)
        (fun q log => log ++ [q.pos]) [] = [5, 1, 7, 11] ∧
    foreach_diag_neighbor demo_board (coord_pos (index_atxy demo_board 1 1) demo_board)
        (fun q log => log ++ [q.pos]) [] = [0, 2, 10, 12] ∧
    foreach_neighbor_q demo_board (coord_pos (index_atxy demo_board 1 1) demo_board)
      = [ coord_pos (index_atxy demo_board (1 - 1) 1) demo_board,
          coord_pos (index_atxy demo_board 1 (1 - 1)) demo_board,
          coord_pos (index_atxy demo_board (1 + 1) 1) demo_board,
          coord_pos (index_atxy demo_board 1 (1 + 1)) demo_board ] := by
  have h3 : 3 ≤ demo_board.size := by decide
  have h1 : (1 : Int) ≤ 1 := by decide
  have h2 : 1 ≤ demo_board.size - 2 := by decide
  have h := C3_neighbors_in_bounds demo_board 1 1 h3 h1 h2 h1 h2
  refine ⟨⟨h3, h1, h2⟩, ?_, ?_, h.2.2.1⟩
  · rw [h.1]
    decide
  · rw [h.2.1]
    decide

/-! ## `foreach_point` -/

theorem foreach_point_loop_eq {σ : Type} (body : coord_t → σ → σ) (size : Int) :
    ∀ (n : Nat) (pos : Int) (s : σ), (size * size - pos).toNat = n →
      foreach_point_loop body ⟨pos, size⟩ s
        = ((List.range n).map (fun i : Nat => (⟨pos + i, size⟩ : coord_t))).foldl
            (fun st c => body c st) s := by
  intro n
  induction n with
  | zero =>
    intro pos s h
    rw [foreach_point_loop]
    have hlt : ¬ pos < size * size := by omega
    simp [hlt]
  | succ n ih =>
    intro pos s h
    rw [foreach_point_loop]
    have hlt : pos < size * size := by omega
    simp only [hlt, if_true]
    rw [ih (pos + 1) (body ⟨pos, size⟩ s) (by omega), List.range_succ_eq_map]
    simp only [List.map_cons, List.map_map, List.foldl_cons, Nat.cast_zero, add_zero]
    congr 2
    funext i
    simp only [Function.comp, Nat.cast_succ, coord_t.mk.injEq, and_true]
    ring

theorem foldl_log_eq {α : Type} (f : α → Int) (l : List α) (init : List Int) :
    l.foldl (fun log c => log ++ [f c]) init = init ++ l.map f := by
  induction l generalizing init with
  | nil => simp
  | cons a t ih => simp [ih]

/-- Claim C6: for every board of side length `size` (margin included) and every loop body,
`foreach_point` runs the body exactly once for each position index `0, 1, ..., size*size - 1`,
in ascending order; hence the position of every point `(x, y)` of the grid,
`0 <= x, y < size` (playable points and the off-board margin alike), is visited exactly
once. -/
theorem C6_foreach_point_all_positions (b_ : board) :
    (∀ (σ : Type) (body : coord_t → σ → σ) (s : σ),
      foreach_point b_ body s
        = ((List.range (b_.size * b_.size).toNat).map
            (fun i : Nat => coord_pos (i : Int) b_)).foldl (fun st c => body c st) s) ∧
    foreach_point_visits b_
      = (List.range (b_.size * b_.size).toNat).map (fun i : Nat => (i : Int)) ∧
    ∀ x y : Int, 0 ≤ x → x < b_.size → 0 ≤ y → y < b_.size →
      (foreach_point_visits b_).count (index_atxy b_ x y) = 1 := by
  have main : ∀ (σ : Type) (body : coord_t → σ → σ) (s : σ),
      foreach_point b_ body s
        = ((List.range (b_.size * b_.size).toNat).map
            (fun i : Nat => coord_pos (i : Int) b_)).foldl (fun st c => body c st) s := by
    intro σ body s
    unfold foreach_point coord_pos
    rw [foreach_point_loop_eq body b_.size (b_.size * b_.size).toNat 0 s (by simp)]
    simp
  have visits : foreach_point_visits b_
      = (List.range (b_.size * b_.size).toNat).map (fun i : Nat => (i : Int)) := by
    unfold foreach_point_visits
    rw [main, foldl_log_eq (fun c : coord_t => c.pos)]
    simp [coord_pos, Function.comp_def]
  refine ⟨main, visits, ?_⟩
  intro x y hx0 hx1 hy0 hy1
  obtain ⟨_, _, h0, h1⟩ := index_atxy_decompose b_ x y hx0 hx1 hy0 hy1
  rw [visits]
  apply List.count_eq_one_of_mem
  · exact (List.nodup_range _).map Nat.cast_injective
  · rw [List.mem_map]
    refine ⟨(index_atxy b_ x y).toNat, ?_, ?_⟩
    · rw [List.mem_range]
      omega
    · omega

/-- Witness of C6 on the 3x3 example board (25 positions): the playable centre `(2, 2)` and
the margin corner `(0, 0)` are each visited once. -/
theorem C6_foreach_point_all_positions_witness :
    foreach_point_visits demo_board
      = [0, 1, 2, 3, 4, 5, 6, 7, 8, 9, 10, 11, 12, 13, 14, 15, 16, 17, 18, 19, 20, 21, 22,
          23, 24] ∧
    (foreach_point_visits demo_board).count (index_atxy demo_board 2 2) = 1 ∧
    (foreach_point_visits demo_board).count (index_atxy demo_board 0 0) = 1 := by
  have h := C6_foreach_point_all_positions demo_board
  refine ⟨?_, h.2.2 2 2 (by decide) (by decide) (by decide) (by decide),
    h.2.2 0 0 (by decide) (by decide) (by decide) (by decide)⟩
  rw [h.2.1]
  decide

/-! ## `foreach_in_group` -/

theorem is_chain_head_ne_zero (next : Int → Nat) (a : Int) (l : List Int)
    (h : is_chain next (a :: l)) : a ≠ 0 := by
  cases l with
  | nil => exact h.1
  | cons t r => exact h.1

/-- The loop of `foreach_in_group` on a 0-terminated chain `a :: l` of the map `next`, entered
at `c = a`, `c2 = next a`, in a state whose next-stone map agrees with `next` on the stones
still to come, with a body that writes no next link but that of its own stone: it exits
after exactly `l.length + 1` runs of the body, on `a :: l` in order. -/
theorem foreach_in_group_loop_chain {σ : Type} (brd : σ → board) (body : coord_t → σ → σ)
    (hbody : ∀ (c : coord_t) (s : σ) (q : Int), q ≠ c.pos → (brd (body c s)).p q = (brd s).p q)
    (size : Int) (next : Int → Nat) :
    ∀ (l : List Int) (a : Int) (s : σ), is_chain next (a :: l) → (a :: l).Nodup →
      (∀ q ∈ l, (brd s).p q = next q) →
      (∀ fuel, l.length + 1 ≤ fuel →
        foreach_in_group_loop brd body fuel ⟨a, size⟩ ⟨(next a : Int), size⟩ s
          = some (run_body_on body size (a :: l) s)) ∧
      (∀ fuel, fuel ≤ l.length →
        foreach_in_group_loop brd body fuel ⟨a, size⟩ ⟨(next a : Int), size⟩ s = none) := by
  intro l
  induction l with
  | nil =>
    intro a s hc _ _
    have h0 : (next a : Int) = 0 := hc.2
    constructor
    · intro fuel hf
      obtain ⟨f, rfl⟩ : ∃ f, fuel = f + 1 := ⟨fuel - 1, by simp at hf; omega⟩
      simp [foreach_in_group_loop, run_body_on, h0]
    · intro fuel hf
      have : fuel = 0 := by simpa using hf
      subst this
      rfl
  | cons t r ih =>
    intro a s hc hnd hp
    obtain ⟨_, hat, hrest⟩ := hc
    have ht0 : t ≠ 0 := is_chain_head_ne_zero next t r hrest
    have hnd2 : (t :: r).Nodup := (List.nodup_cons.mp hnd).2
    have hta : t ≠ a := by
      intro e
      exact (List.nodup_cons.mp hnd).1 (by simp [e])
    have hp1 : ∀ q ∈ t :: r, (brd (body ⟨a, size⟩ s)).p q = next q := by
      intro q hq
      have hqa : q ≠ a := by
        intro e
        exact (List.nodup_cons.mp hnd).1 (by rw [← e]; exact hq)
      rw [hbody ⟨a, size⟩ s q hqa]
      exact hp q hq
    have hpt : (brd (body ⟨a, size⟩ s)).p t = next t := hp1 t (by simp)
    have hpr : ∀ q ∈ r, (brd (body ⟨a, size⟩ s)).p q = next q :=
      fun q hq => hp1 q (List.mem_cons_of_mem _ hq)
    obtain ⟨ih1, ih2⟩ := ih t (body ⟨a, size⟩ s) hrest hnd2 hpr
    constructor
    · intro fuel hf
      obtain ⟨f, rfl⟩ : ∃ f, fuel = f + 1 := ⟨fuel - 1, by simp at hf; omega⟩
      have hf2 : r.length + 1 ≤ f := by simpa using hf
      have := ih1 f hf2
      simp only [foreach_in_group_loop, groupnext_at, hat, ne_eq, ht0, not_false_eq_true,
        if_true, hpt]
      rw [this]
      rfl
    · intro fuel hf
      cases fuel with
      | zero => rfl
      | succ f =>
        have hf2 : f ≤ r.length := by simpa using hf
        have := ih2 f hf2
        simp only [foreach_in_group_loop, groupnext_at, hat, ne_eq, ht0, not_false_eq_true,
          if_true, hpt]
        exact this

/-- The iterator on a group whose base stone heads a 0-terminated chain `l`. -/
theorem foreach_in_group_chain {σ : Type} (brd : σ → board) (group_ : Nat)
    (body : coord_t → σ → σ) (s : σ) (l : List Int)
    (hbody : ∀ (c : coord_t) (s : σ) (q : Int), q ≠ c.pos → (brd (body c s)).p q = (brd s).p q)
    (hhead : l.head? = some (board_group (brd s) group_).base_stone.pos)
    (hchain : is_chain (brd s).p l) (hnodup : l.Nodup) :
    (∀ fuel, l.length ≤ fuel →
      foreach_in_group brd group_ body fuel s
        = some (run_body_on body (board_group (brd s) group_).base_stone.size l s)) ∧
    (∀ fuel, fuel < l.length → foreach_in_group brd group_ body fuel s = none) := by
  unfold foreach_in_group
  generalize (board_group (brd s) group_).base_stone = base at hhead ⊢
  obtain ⟨bpos, bsize⟩ := base
  cases l with
  | nil => exact absurd hchain (by simp [is_chain])
  | cons a r =>
    have ha : a = bpos := by simpa using hhead
    subst ha
    obtain ⟨h1, h2⟩ := foreach_in_group_loop_chain brd body hbody bsize (brd s).p r a s
      hchain hnodup (fun _ _ => rfl)
    exact ⟨fun fuel hf => h1 fuel (by simpa using hf),
      fun fuel hf => h2 fuel (by simp at hf; omega)⟩

/-- Claim C5: for every group whose chain `base_stone = s1 -> s2 -> ... -> sk -> 0` along the
next array consists of `k >= 1` pairwise distinct non-zero positions, and every body that
does not modify the next array, `foreach_in_group` terminates (any fuel of at least `k`
loop iterations gives the result) and runs the body exactly `k` times, on `s1, ..., sk` in
that order; fewer than `k` iterations do not finish. -/
theorem C5_foreach_in_group_chain_order {σ : Type} (brd : σ → board) (group_ : Nat)
    (body : coord_t → σ → σ) (s : σ) (l : List Int)
    (hbody : ∀ (c : coord_t) (st : σ), (brd (body c st)).p = (brd st).p)
    (hhead : l.head? = some (board_group (brd s) group_).base_stone.pos)
    (hchain : is_chain (brd s).p l) (hnodup : l.Nodup) :
    (∀ fuel, l.length ≤ fuel →
      foreach_in_group brd group_ body fuel s
        = some (run_body_on body (board_group (brd s) group_).base_stone.size l s)) ∧
    (∀ fuel, fuel < l.length → foreach_in_group brd group_ body fuel s = none) :=
  foreach_in_group_chain brd group_ body s l (fun c st q _ => by rw [hbody c st])
    hhead hchain hnodup

/-- Witness of C5 on group 1 of the example board, chained `7 -> 8 -> 13 -> 0`, with a body
that logs the position it runs on: the log is `[7, 8, 13]`. -/
theorem C5_foreach_in_group_chain_order_witness :
    ([7, 8, 13].head? = some (board_group demo_board 1).base_stone.pos ∧
      is_chain demo_board.p [7, 8, 13] ∧ ([7, 8, 13] : List Int).Nodup) ∧
    (foreach_in_group Prod.fst 1 log_body 3 (demo_board, [])).map Prod.snd
      = some [7, 8, 13] ∧
    (foreach_in_group Prod.fst 1 log_body 2 (demo_board, [])).map Prod.snd = none := by
  have hhead : ([7, 8, 13] : List Int).head? = some (board_group demo_board 1).base_stone.pos :=
    rfl
  have hchain : is_chain demo_board.p [7, 8, 13] := by
    unfold is_chain is_chain is_chain
    decide
  have hnodup : ([7, 8, 13] : List Int).Nodup := by decide
  have h := C5_foreach_in_group_chain_order Prod.fst 1 log_body (demo_board, []) [7, 8, 13]
    (fun _ _ => rfl) hhead hchain hnodup
  refine ⟨⟨hhead, hchain, hnodup⟩, ?_, ?_⟩
  · rw [h.1 3 (by decide)]
    rfl
  · rw [h.2 2 (by decide)]
    rfl

/-- Claim C10: `foreach_in_group` reads the successor of the current stone before it runs the
body. For every group with a 0-terminated chain `s1 -> ... -> sk -> 0` of pairwise distinct
non-zero positions, and every body whose run on a stone overwrites no next link but that of
this stone (it may clear it to 0, as a capture does), the iteration still runs the body
exactly once on each of `s1, ..., sk`, in order, and then terminates. -/
theorem C10_foreach_in_group_body_may_unlink {σ : Type} (brd : σ → board) (group_ : Nat)
    (body : coord_t → σ → σ) (s : σ) (l : List Int)
    (hbody : ∀ (c : coord_t) (st : σ) (q : Int), q ≠ c.pos →
      (brd (body c st)).p q = (brd st).p q)
    (hhead : l.head? = some (board_group (brd s) group_).base_stone.pos)
    (hchain : is_chain (brd s).p l) (hnodup : l.Nodup) :
    (∀ fuel, l.length ≤ fuel →
      foreach_in_group brd group_ body fuel s
        = some (run_body_on body (board_group (brd s) group_).base_stone.size l s)) ∧
    (∀ fuel, fuel < l.length → foreach_in_group brd group_ body fuel s = none) :=
  foreach_in_group_chain brd group_ body s l hbody hhead hchain hnodup

/-- Witness of C10 on group 1 of the example board with a body that clears the next link of
its stone and counts its runs: three runs, and the links of 7 and 8 are cleared. -/
theorem C10_foreach_in_group_body_may_unlink_witness :
    ([7, 8, 13].head? = some (board_group demo_board 1).base_stone.pos ∧
      is_chain demo_board.p [7, 8, 13] ∧ ([7, 8, 13] : List Int).Nodup) ∧
    (foreach_in_group Prod.fst 1 clear_next_body 3 (demo_board, 0)).map
        (fun r => (r.2, r.1.p 7, r.1.p 8, r.1.p 13))
      = some (3, 0, 0, 0) := by
  have hhead : ([7, 8, 13] : List Int).head? = some (board_group demo_board 1).base_stone.pos :=
    rfl
  have hchain : is_chain demo_board.p [7, 8, 13] := by
    unfold is_chain is_chain is_chain
    decide
  have hnodup : ([7, 8, 13] : List Int).Nodup := by decide
  have hbody : ∀ (c : coord_t) (st : board × Nat) (q : Int), q ≠ c.pos →
      (Prod.fst (clear_next_body c st)).p q = (Prod.fst st).p q := by
    intro c st q hq
    simp [clear_next_body, hq]
  have h := C10_foreach_in_group_body_may_unlink Prod.fst 1 clear_next_body (demo_board, 0)
    [7, 8, 13] hbody hhead hchain hnodup
  refine ⟨⟨hhead, hchain, hnodup⟩, ?_⟩
  rw [h.1 3 (by decide)]
  rfl

/-- Claim C4, counterexample: a one-stone group at position 60 of a 9x9 board whose next link
is the self-loop `next[60] = 60`, a circular list through its base stone. Whatever the
number of loop iterations allowed, `foreach_in_group` has not terminated: its loop exits
only when the next position is 0. -/
theorem C4_circular_list_counterexample :
    (board_group (single_stone_board 60 60 4) 1).base_stone.pos = 60 ∧
    is_cycle_from (single_stone_board 60 60 4).p 60 [60] ∧
    ∀ fuel, foreach_in_group Prod.fst 1 log_body fuel (single_stone_board 60 60 4, [])
      = none := by
  refine ⟨rfl, ⟨by decide, rfl⟩, ?_⟩
  intro fuel
  unfold foreach_in_group
  have key : ∀ (n : Nat) (st : board × List Int), st.1.p 60 = 60 →
      foreach_in_group_loop Prod.fst log_body n ⟨60, 11⟩ ⟨60, 11⟩ st = none := by
    intro n
    induction n with
    | zero => intro st _; rfl
    | succ n ih =>
      intro st hst
      have h2 : (log_body ⟨60, 11⟩ st).1.p 60 = 60 := hst
      simp only [foreach_in_group_loop, groupnext_at, h2]
      exact ih _ h2
  exact key fuel _ rfl

/-- Claim C4, amended: for every live group whose next links form a 0-terminated chain from
its base stone (a one-stone group has `next[pos] = 0`), whose stones are exactly the
positions carrying its group id, and every body that does not modify the next array,
`foreach_in_group` terminates, stopping when the next position equals 0, after running its
body exactly once on each stone of the group and on no other position. -/
theorem C4_foreach_in_group_each_stone_once {σ : Type} (brd : σ → board) (group_ : Nat)
    (body : coord_t → σ → σ) (s : σ) (l : List Int)
    (hbody : ∀ (c : coord_t) (st : σ), (brd (body c st)).p = (brd st).p)
    (hhead : l.head? = some (board_group (brd s) group_).base_stone.pos)
    (hchain : is_chain (brd s).p l) (hnodup : l.Nodup)
    (hgroup : ∀ q : Int, (brd s).g q = group_ ↔ q ∈ l) :
    ∃ visits : List Int,
      (∀ q : Int, visits.count q = if (brd s).g q = group_ then 1 else 0) ∧
      ∀ fuel, visits.length ≤ fuel →
        foreach_in_group brd group_ body fuel s
          = some (run_body_on body (board_group (brd s) group_).base_stone.size visits s) := by
  refine ⟨l, ?_, (foreach_in_group_chain brd group_ body s l
    (fun c st q _ => by rw [hbody c st]) hhead hchain hnodup).1⟩
  intro q
  by_cases hq : (brd s).g q = group_
  · rw [if_pos hq]
    exact List.count_eq_one_of_mem hnodup ((hgroup q).mp hq)
  · rw [if_neg hq]
    exact List.count_eq_zero_of_not_mem (fun hm => hq ((hgroup q).mpr hm))

/-- Witness of the amended C4 on group 1 of the example board. -/
theorem C4_foreach_in_group_each_stone_once_witness :
    ([7, 8, 13].head? = some (board_group demo_board 1).base_stone.pos ∧
      is_chain demo_board.p [7, 8, 13] ∧ ([7, 8, 13] : List Int).Nodup ∧
      ∀ q : Int, demo_board.g q = 1 ↔ q ∈ ([7, 8, 13] : List Int)) ∧
    ∃ visits : List Int,
      (∀ q : Int, visits.count q = if demo_board.g q = 1 then 1 else 0) ∧
      ∀ fuel, visits.length ≤ fuel →
        foreach_in_group Prod.fst 1 log_body fuel (demo_board, ([] : List Int))
          = some (run_body_on log_body 5 visits (demo_board, [])) := by
  have hhead : ([7, 8, 13] : List Int).head? = some (board_group demo_board 1).base_stone.pos :=
    rfl
  have hchain : is_chain demo_board.p [7, 8, 13] := by
    unfold is_chain is_chain is_chain
    decide
  have hnodup : ([7, 8, 13] : List Int).Nodup := by decide
  have hgroup : ∀ q : Int, demo_board.g q = 1 ↔ q ∈ ([7, 8, 13] : List Int) := by
    intro q
    simp only [demo_board, List.mem_cons, List.mem_singleton, List.not_mem_nil, or_false]
    split_ifs <;> simp_all
  exact ⟨⟨hhead, hchain, hnodup, hgroup⟩,
    C4_foreach_in_group_each_stone_once Prod.fst 1 log_body (demo_board, []) [7, 8, 13]
      (fun _ _ => rfl) hhead hchain hnodup hgroup⟩

/-! ## Pseudo-liberties of a single stone -/

/-- Claim C7, counterexample: on a 9x9 board (side 11) the single black stone at the corner
point `(1, 1)`, position 12, is a playable position none of whose four neighbours holds a
stone, yet two of them are off-board and the stone has 2 pseudo-liberties, not 4. -/
theorem C7_corner_stone_counterexample :
    index_atxy (single_stone_board 12 0 2) 1 1 = 12 ∧
    board_at (single_stone_board 12 0 2) ⟨12, 11⟩ = .S_BLACK ∧
    (∀ q ∈ foreach_neighbor_q (single_stone_board 12 0 2) ⟨12, 11⟩,
      ¬ holds_stone (single_stone_board 12 0 2) q) ∧
    pseudo_libs (single_stone_board 12 0 2) [⟨12, 11⟩] = 2 ∧
    pseudo_libs (single_stone_board 12 0 2) [⟨12, 11⟩] ≠ 4 := by
  decide

/-- Claim C7, amended: a group consisting of the single stone at `p`, none of whose four
orthogonal neighbours holds a stone, has a pseudo-liberty count (the value invariant I4
prescribes) of 4 minus the number of its off-board neighbours; it is 4 when all four
neighbours are empty, that is when `p` is not on the edge of the board. -/
theorem C7_single_stone_pseudo_libs (b_ : board) (p : coord_t)
    (hfree : ∀ q ∈ foreach_neighbor_q b_ p, ¬ holds_stone b_ q) :
    pseudo_libs b_ [p] + neighbors_of_color b_ p .S_OFFBOARD = 4 ∧
    ((∀ q ∈ foreach_neighbor_q b_ p, board_at b_ q ≠ .S_OFFBOARD) → pseudo_libs b_ [p] = 4) := by
  unfold pseudo_libs empty_neighbors
  simp only [List.map_cons, List.map_nil, List.sum_cons, List.sum_nil, add_zero]
  rw [neighbors_of_color_eq, neighbors_of_color_eq]
  revert hfree
  simp only [holds_stone, foreach_neighbor_q, List.map_cons, List.map_nil, List.sum_cons,
    List.sum_nil, List.mem_cons, List.mem_singleton, List.not_mem_nil, or_false,
    forall_eq_or_imp, forall_eq]
  generalize board_at b_ (coord_pos (p.pos - 1) b_) = s1
  generalize board_at b_ (coord_pos (p.pos - p.size) b_) = s2
  generalize board_at b_ (coord_pos (p.pos + 1) b_) = s3
  generalize board_at b_ (coord_pos (p.pos + p.size) b_) = s4
  cases s1 <;> cases s2 <;> cases s3 <;> cases s4 <;> simp

/-- Witness of the amended C7: the single stone at the centre `(5, 5)` of a 9x9 board,
position 60, has 4 pseudo-liberties. -/
theorem C7_single_stone_pseudo_libs_witness :
    (∀ q ∈ foreach_neighbor_q (single_stone_board 60 0 4) ⟨60, 11⟩,
      ¬ holds_stone (single_stone_board 60 0 4) q) ∧
    (∀ q ∈ foreach_neighbor_q (single_stone_board 60 0 4) ⟨60, 11⟩,
      board_at (single_stone_board 60 0 4) q ≠ .S_OFFBOARD) ∧
    pseudo_libs (single_stone_board 60 0 4) [⟨60, 11⟩] = 4 :=
  have h1 : ∀ q ∈ foreach_neighbor_q (single_stone_board 60 0 4) ⟨60, 11⟩,
      ¬ holds_stone (single_stone_board 60 0 4) q := by decide
  have h2 : ∀ q ∈ foreach_neighbor_q (single_stone_board 60 0 4) ⟨60, 11⟩,
      board_at (single_stone_board 60 0 4) q ≠ .S_OFFBOARD := by decide
  ⟨h1, h2, (C7_single_stone_pseudo_libs (single_stone_board 60 0 4) ⟨60, 11⟩ h1).2 h2⟩

/-! ## Engine selection -/

theorem tolower_eq (c : Char) : tolower c = c.toLower := by
  unfold tolower Char.toLower
  simp only [Char.le_def, ge_iff_le]
  rfl

theorem tolower_toNat_ne_zero (c : Char) (h : c ≠ Char.ofNat 0) : (tolower c).toNat ≠ 0 := by
  rw [tolower_eq]
  unfold Char.toLower
  simp only
  split_ifs with hu
  · obtain ⟨h1, h2⟩ := hu
    generalize c.toNat = n at h1 h2
    interval_cases n <;> decide
  · intro h0
    apply h
    rw [← Char.ofNat_toNat c, h0]

theorem char_toNat_injective (a b : Char) (h : a.toNat = b.toNat) : a = b := by
  rw [← Char.ofNat_toNat a, ← Char.ofNat_toNat b, h]

theorem strcasecmp_eq_zero_iff :
    ∀ (a b : List Char), Char.ofNat 0 ∉ a → Char.ofNat 0 ∉ b →
      (strcasecmp a b = 0 ↔ a.map tolower = b.map tolower) := by
  intro a
  induction a with
  | nil =>
    intro b _ hb
    cases b with
    | nil => simp [strcasecmp]
    | cons y t =>
      have hy : (tolower y).toNat ≠ 0 :=
        tolower_toNat_ne_zero y (fun e => hb (by simp [e]))
      simp only [strcasecmp, List.map_nil, List.map_cons]
      constructor
      · intro h
        omega
      · intro h
        exact absurd h (by simp)
  | cons x s ih =>
    intro b ha hb
    have hs : Char.ofNat 0 ∉ s := fun h => ha (List.mem_cons_of_mem _ h)
    cases b with
    | nil =>
      have hx : (tolower x).toNat ≠ 0 :=
        tolower_toNat_ne_zero x (fun e => ha (by simp [e]))
      simp only [strcasecmp, List.map_nil, List.map_cons]
      constructor
      · intro h
        omega
      · intro h
        exact absurd h (by simp)
    | cons y t =>
      have ht : Char.ofNat 0 ∉ t := fun h => hb (List.mem_cons_of_mem _ h)
      simp only [strcasecmp, List.map_cons, List.cons.injEq]
      by_cases hxy : tolower x = tolower y
      · simp only [hxy, if_true, true_and]
        exact ih t hs ht
      · simp only [hxy, if_false, false_and, iff_false]
        intro h
        exact hxy (char_toNat_injective _ _ (by omega))

theorem strcasecmp_eq_zero_iff_eq_ignoring_case (a b : List Char)
    (ha : Char.ofNat 0 ∉ a) (hb : Char.ofNat 0 ∉ b) :
    strcasecmp a b = 0 ↔ eq_ignoring_case a b := by
  rw [strcasecmp_eq_zero_iff a b ha hb]
  unfold eq_ignoring_case
  have e : tolower = Char.toLower := funext tolower_eq
  rw [e]

theorem main_options_append (ext : externals) :
    ∀ (l1 l2 : List (Char × List Char)) (v : main_vars),
      main_options ext v (l1 ++ l2)
        = match main_options ext v l1 with
          | .ok v1 => main_options ext v1 l2
          | .error e => .error e := by
  intro l1
  induction l1 with
  | nil => intro l2 v; rfl
  | cons o rest ih =>
    intro l2 v
    obtain ⟨opt, optarg⟩ := o
    simp only [List.cons_append, main_options]
    cases main_option ext v opt optarg with
    | error e => rfl
    | ok v1 => exact ih l2 v1

/-- An option other than `-e` neither reads nor writes the variable `engine`. -/
theorem main_option_engine_irrelevant (ext : externals) (v : main_vars) (x : Nat)
    (opt : Char) (optarg : List Char) (h : opt ≠ 'e') :
    main_option ext { v with engine := x } opt optarg
      = (main_option ext v opt optarg).map (fun v1 => { v1 with engine := x }) := by
  unfold main_option
  simp only [h, if_false]
  by_cases hd : opt = 'd'
  · simp only [hd, if_true]; rfl
  · by_cases hs : opt = 's'
    · simp only [hd, hs, if_true, if_false]; rfl
    · by_cases ht : opt = 't'
      · simp only [hd, hs, ht, if_true, if_false]
        cases ext.time_parse v.ti_default optarg with
        | none => rfl
        | some ti =>
          simp only
          split_ifs <;> rfl
      · by_cases hu : opt = 'u'
        · simp only [hd, hs, ht, hu, if_true, if_false]; rfl
        · simp only [hd, hs, ht, hu, if_false]; rfl

theorem main_options_engine_irrelevant (ext : externals) :
    ∀ (opts : List (Char × List Char)) (v : main_vars) (x : Nat),
      (∀ o ∈ opts, o.1 ≠ 'e') →
      main_options ext { v with engine := x } opts
        = (main_options ext v opts).map (fun v1 => { v1 with engine := x }) := by
  intro opts
  induction opts with
  | nil => intro v x _; rfl
  | cons o rest ih =>
    intro v x h
    obtain ⟨opt, optarg⟩ := o
    have ho : opt ≠ 'e' := h (opt, optarg) (by simp)
    have hrest : ∀ o ∈ rest, o.1 ≠ 'e' := fun o ho2 => h o (List.mem_cons_of_mem _ ho2)
    simp only [main_options]
    rw [main_option_engine_irrelevant ext v x opt optarg ho]
    cases main_option ext v opt optarg with
    | error e => rfl
    | ok v1 => exact ih v1 x hrest

theorem main_options_engine_kept (ext : externals) (opts : List (Char × List Char))
    (v v1 : main_vars) (h : ∀ o ∈ opts, o.1 ≠ 'e') (hok : main_options ext v opts = .ok v1) :
    v1.engine = v.engine := by
  have e := main_options_engine_irrelevant ext opts v v.engine h
  have ev : ({ v with engine := v.engine } : main_vars) = v := rfl
  rw [ev, hok] at e
  have e2 : v1 = { v1 with engine := v.engine } := by
    simpa [Except.map] using e
  rw [e2]

/-- The start-up of `main` on a command line `pre ++ (-e a) :: post` whose last `-e` option
is `-e a` and whose other options let the option loop run to its end. -/
theorem main_with_last_engine_option (ext : externals) (seed0 : Int)
    (pre post : List (Char × List Char)) (a : List Char) (e_arg : Option (List Char))
    (hpost : ∀ o ∈ post, o.1 ≠ 'e')
    (hrest : option_loop_completes ext seed0 (pre ++ post)) :
    main ext seed0 (pre ++ ('e', a) :: post) e_arg
      = if strcasecmp a "random".toList = 0 then init_engine E_RANDOM e_arg
        else if strcasecmp a "patternscan".toList = 0 then init_engine E_PATTERNSCAN e_arg
        else if strcasecmp a "replay".toList = 0 then init_engine E_REPLAY e_arg
        else if strcasecmp a "montecarlo".toList = 0 then init_engine E_MONTECARLO e_arg
        else if strcasecmp a "uct".toList = 0 then init_engine E_UCT e_arg
        else .exit 1 := by
  obtain ⟨vf, hvf⟩ := hrest
  rw [main_options_append] at hvf
  unfold main
  rw [main_options_append]
  cases hp : main_options ext (main_initial ext seed0) pre with
  | error e => rw [hp] at hvf; exact absurd hvf (by simp)
  | ok vp =>
    rw [hp] at hvf
    simp only at hvf
    simp only [main_options, main_option, if_true]
    split_ifs with c1 c2 c3 c4 c5
    · simp only [main_options_engine_irrelevant ext post vp E_RANDOM hpost, hvf]
      rfl
    · simp only [main_options_engine_irrelevant ext post vp E_PATTERNSCAN hpost, hvf]
      rfl
    · simp only [main_options_engine_irrelevant ext post vp E_REPLAY hpost, hvf]
      rfl
    · simp only [main_options_engine_irrelevant ext post vp E_MONTECARLO hpost, hvf]
      rfl
    · simp only [main_options_engine_irrelevant ext post vp E_UCT hpost, hvf]
      rfl
    · rfl

/-- Claim C8, counterexample: on the command line `-e random -e uct` the argument `random`
is given, yet the engine initialised is uct, not random; and on the command lines `-z`
(an unknown option, for which `getopt` returns `?`) and `-t x` (a time setting `time_parse`
rejects) no `-e` option is given, yet the program exits with status 1 instead of
initialising uct. -/
theorem C8_other_options_counterexample :
    eq_ignoring_case "random".toList "random".toList ∧
    main demo_externals 0 [('e', "random".toList), ('e', "uct".toList)] none
      = .engine_initialised .engine_uct_init none ∧
    main demo_externals 0 [('e', "random".toList), ('e', "uct".toList)] none
      ≠ .engine_initialised .engine_random_init none ∧
    (∀ o ∈ [('?', ([] : List Char))], o.1 ≠ 'e') ∧
    main demo_externals 0 [('?', [])] none = .exit 1 ∧
    (∀ o ∈ [('t', "x".toList)], o.1 ≠ 'e') ∧
    main demo_externals 0 [('t', "x".toList)] none = .exit 1 := by
  unfold eq_ignoring_case
  decide

/-- Claim C8, amended: for every command line whose other options let the option loop of
`main` run to its end (no invalid `-t`, no unknown option, no invalid other `-e`), and every
`-e` argument string `a` that is the last `-e` argument on it: the engine constructor called
through the table `engine_init` is `engine_random_init`, `engine_replay_init`,
`engine_patternscan_init`, `engine_montecarlo_init` or `engine_uct_init` exactly when `a`
equals `random`, `replay`, `patternscan`, `montecarlo` or `uct` ignoring letter case; for
every other `a` the program exits with status 1 and no engine is initialised; and when no
`-e` option is given on such a command line the uct engine is initialised. -/
theorem C8_last_engine_option_selects (ext : externals) (seed0 : Int)
    (pre post : List (Char × List Char)) (a : List Char) (e_arg : Option (List Char))
    (hpost : ∀ o ∈ post, o.1 ≠ 'e')
    (hrest : option_loop_completes ext seed0 (pre ++ post)) (hnul : Char.ofNat 0 ∉ a) :
    (main ext seed0 (pre ++ ('e', a) :: post) e_arg
        = .engine_initialised .engine_random_init e_arg
      ↔ eq_ignoring_case a "random".toList) ∧
    (main ext seed0 (pre ++ ('e', a) :: post) e_arg
        = .engine_initialised .engine_replay_init e_arg
      ↔ eq_ignoring_case a "replay".toList) ∧
    (main ext seed0 (pre ++ ('e', a) :: post) e_arg
        = .engine_initialised .engine_patternscan_init e_arg
      ↔ eq_ignoring_case a "patternscan".toList) ∧
    (main ext seed0 (pre ++ ('e', a) :: post) e_arg
        = .engine_initialised .engine_montecarlo_init e_arg
      ↔ eq_ignoring_case a "montecarlo".toList) ∧
    (main ext seed0 (pre ++ ('e', a) :: post) e_arg
        = .engine_initialised .engine_uct_init e_arg
      ↔ eq_ignoring_case a "uct".toList) ∧
    (¬ eq_ignoring_case a "random".toList → ¬ eq_ignoring_case a "replay".toList →
      ¬ eq_ignoring_case a "patternscan".toList → ¬ eq_ignoring_case a "montecarlo".toList →
      ¬ eq_ignoring_case a "uct".toList →
      main ext seed0 (pre ++ ('e', a) :: post) e_arg = .exit 1) ∧
    ((∀ o ∈ pre, o.1 ≠ 'e') →
      main ext seed0 (pre ++ post) e_arg = .engine_initialised .engine_uct_init e_arg) := by
  have noe : (∀ o ∈ pre, o.1 ≠ 'e') →
      main ext seed0 (pre ++ post) e_arg = .engine_initialised .engine_uct_init e_arg := by
    intro hpre
    obtain ⟨vf, hvf⟩ := hrest
    have hall : ∀ o ∈ pre ++ post, o.1 ≠ 'e' := by
      intro o ho
      rcases List.mem_append.mp ho with h | h
      · exact hpre o h
      · exact hpost o h
    have hk := main_options_engine_kept ext (pre ++ post) _ vf hall hvf
    unfold main
    rw [hvf]
    simp only [hk]
    rfl
  have c1 := strcasecmp_eq_zero_iff_eq_ignoring_case a "random".toList hnul (by decide)
  have c2 := strcasecmp_eq_zero_iff_eq_ignoring_case a "patternscan".toList hnul (by decide)
  have c3 := strcasecmp_eq_zero_iff_eq_ignoring_case a "replay".toList hnul (by decide)
  have c4 := strcasecmp_eq_zero_iff_eq_ignoring_case a "montecarlo".toList hnul (by decide)
  have c5 := strcasecmp_eq_zero_iff_eq_ignoring_case a "uct".toList hnul (by decide)
  have ex : ∀ n1 n2 : List Char, n1.map Char.toLower ≠ n2.map Char.toLower →
      eq_ignoring_case a n1 → ¬ eq_ignoring_case a n2 :=
    fun n1 n2 hne h1 h2 => hne (h1.symm.trans h2)
  have i1 : init_engine E_RANDOM e_arg = .engine_initialised .engine_random_init e_arg := rfl
  have i2 : init_engine E_REPLAY e_arg = .engine_initialised .engine_replay_init e_arg := rfl
  have i3 : init_engine E_PATTERNSCAN e_arg
      = .engine_initialised .engine_patternscan_init e_arg := rfl
  have i4 : init_engine E_MONTECARLO e_arg
      = .engine_initialised .engine_montecarlo_init e_arg := rfl
  have i5 : init_engine E_UCT e_arg = .engine_initialised .engine_uct_init e_arg := rfl
  rw [main_with_last_engine_option ext seed0 pre post a e_arg hpost hrest, i1, i2, i3, i4, i5]
  have x12 := ex "random".toList "patternscan".toList (by decide)
  have x13 := ex "random".toList "replay".toList (by decide)
  have x14 := ex "random".toList "montecarlo".toList (by decide)
  have x15 := ex "random".toList "uct".toList (by decide)
  have x23 := ex "patternscan".toList "replay".toList (by decide)
  have x24 := ex "patternscan".toList "montecarlo".toList (by decide)
  have x25 := ex "patternscan".toList "uct".toList (by decide)
  have x34 := ex "replay".toList "montecarlo".toList (by decide)
  have x35 := ex "replay".toList "uct".toList (by decide)
  have x45 := ex "montecarlo".toList "uct".toList (by decide)
  refine ⟨?_, ?_, ?_, ?_, ?_, ?_, noe⟩ <;> clear noe ex i1 i2 i3 i4 i5 hnul hpost hrest
  all_goals
    generalize eq_ignoring_case a "random".toList = q1 at *
    generalize eq_ignoring_case a "patternscan".toList = q2 at *
    generalize eq_ignoring_case a "replay".toList = q3 at *
    generalize eq_ignoring_case a "montecarlo".toList = q4 at *
    generalize eq_ignoring_case a "uct".toList = q5 at *
    generalize strcasecmp a "random".toList = z1 at *
    generalize strcasecmp a "patternscan".toList = z2 at *
    generalize strcasecmp a "replay".toList = z3 at *
    generalize strcasecmp a "montecarlo".toList = z4 at *
    generalize strcasecmp a "uct".toList = z5 at *
    by_cases h1 : q1 <;> by_cases h2 : q2 <;> by_cases h3 : q3 <;> by_cases h4 : q4 <;>
      by_cases h5 : q5 <;> simp_all

/-- Witness of the amended C8: the command line `-t =1000 -e random -d 2 -e UcT -s 7`
initialises the uct engine; `-t =1000 -e gnugo` exits with status 1; and `-t =1000 -s 7`,
without `-e`, initialises the uct engine. -/
theorem C8_last_engine_option_selects_witness :
    ((∀ o ∈ [('s', "7".toList)], o.1 ≠ 'e') ∧
      option_loop_completes demo_externals 0
        ([('t', "=1000".toList), ('e', "random".toList), ('d', "2".toList)]
          ++ [('s', "7".toList)]) ∧
      Char.ofNat 0 ∉ "UcT".toList ∧ eq_ignoring_case "UcT".toList "uct".toList) ∧
    main demo_externals 0
        ([('t', "=1000".toList), ('e', "random".toList), ('d', "2".toList)]
          ++ ('e', "UcT".toList) :: [('s', "7".toList)]) none
      = .engine_initialised .engine_uct_init none ∧
    main demo_externals 0 ([('t', "=1000".toList)] ++ ('e', "gnugo".toList) :: []) none
      = .exit 1 ∧
    main demo_externals 0 ([('t', "=1000".toList)] ++ [('s', "7".toList)]) none
      = .engine_initialised .engine_uct_init none := by
  have hpost : ∀ o ∈ [('s', "7".toList)], o.1 ≠ 'e' := by decide
  have hnil : ∀ o ∈ ([] : List (Char × List Char)), o.1 ≠ 'e' := by decide
  have hpre : ∀ o ∈ [('t', "=1000".toList)], o.1 ≠ 'e' := by decide
  have hrest : option_loop_completes demo_externals 0
      ([('t', "=1000".toList), ('e', "random".toList), ('d', "2".toList)]
        ++ [('s', "7".toList)]) := ⟨_, rfl⟩
  have hrest2 : option_loop_completes demo_externals 0 ([('t', "=1000".toList)] ++ []) :=
    ⟨_, rfl⟩
  have hrest3 : option_loop_completes demo_externals 0
      ([('t', "=1000".toList)] ++ [('s', "7".toList)]) := ⟨_, rfl⟩
  have hnul : Char.ofNat 0 ∉ "UcT".toList := by decide
  have heq : eq_ignoring_case "UcT".toList "uct".toList := by
    unfold eq_ignoring_case
    decide
  have hne : ∀ name : List Char, name.map Char.toLower ≠ "gnugo".toList.map Char.toLower →
      ¬ eq_ignoring_case "gnugo".toList name := fun name h e => h e.symm
  exact ⟨⟨hpost, hrest, hnul, heq⟩,
    (C8_last_engine_option_selects demo_externals 0
      [('t', "=1000".toList), ('e', "random".toList), ('d', "2".toList)] [('s', "7".toList)]
      "UcT".toList none hpost hrest hnul).2.2.2.2.1.mpr heq,
    (C8_last_engine_option_selects demo_externals 0 [('t', "=1000".toList)] []
      "gnugo".toList none hnil hrest2 (by decide)).2.2.2.2.2.1 (hne _ (by decide))
      (hne _ (by decide)) (hne _ (by decide)) (hne _ (by decide)) (hne _ (by decide)),
    (C8_last_engine_option_selects demo_externals 0 [('t', "=1000".toList)]
      [('s', "7".toList)] "uct".toList none hpost hrest3 (by decide)).2.2.2.2.2.2 hpre⟩

end Pachi
